import Mathlib

/-!
Verification development for the Human Resource Machine profile tool.

This file gives a shallow embedding of the profile byte-layout
addressing (floor/tab offsets and the floor-number remapping), the
instruction disassembler (label generation and the emission pass), and
the raw/geometric comment decoders, translated from the Go sources, and
proves properties of them.

Modelling conventions:
fields that are Go `uint32` values become `Nat` (decoded values are
below `2 ^ 32`, and the embedded code performs no wrapping arithmetic on
them except where written out explicitly); Go `int`/`int64` become
`Int`; Go strings are byte strings and become `List Nat`; the Go map
used for jump labels is modelled as the association list of its
insertions (all inserted keys are distinct slot indices); fallible code
(stream reads, out-of-bounds slice writes, i.e. runtime panics) returns
`Option`.
-/

namespace HRM

/-! ### Instruction data model (instructions package) -/

/-- A decoded binary instruction: four little-endian uint32 fields,
in declaration order `Comment`, `Op`, `Mode`, `Arg`. -/
structure Instruction where
  Comment : Nat
  Op : Nat
  Mode : Nat
  Arg : Nat
deriving DecidableEq, Repr

def OP_INBOX : Nat := 0x0

def OP_OUTBOX : Nat := 0x1

def OP_COPY_FROM : Nat := 0x2

def OP_COPY_TO : Nat := 0x3

def OP_ADD : Nat := 0x4

def OP_SUB : Nat := 0x5

def OP_BUMP_MINUS : Nat := 0x6

def OP_BUMP_PLUS : Nat := 0x7

def OP_JUMP : Nat := 0x8

def OP_JUMP_ZERO : Nat := 0x9

def OP_JUMP_NEG : Nat := 0xA

def OP_JUMP_TGT : Nat := 0xD

def MODE_DIRECT : Nat := 0x1

def MODE_INDIRECT : Nat := 0x2

/-- The key set of the `InstrunctionMnemonics` map. -/
def InstrunctionMnemonicsOps : List Nat :=
  [OP_INBOX, OP_OUTBOX, OP_COPY_FROM, OP_COPY_TO, OP_ADD, OP_SUB,
   OP_BUMP_MINUS, OP_BUMP_PLUS, OP_JUMP, OP_JUMP_ZERO, OP_JUMP_NEG]

/-- The key set of the `InstructionsWithArg` map. -/
def InstructionsWithArgOps : List Nat :=
  [OP_COPY_FROM, OP_COPY_TO, OP_ADD, OP_SUB, OP_BUMP_MINUS, OP_BUMP_PLUS]

/-- The key set of the `InstructionsWithLabel` map. -/
def InstructionsWithLabelOps : List Nat :=
  [OP_JUMP, OP_JUMP_ZERO, OP_JUMP_NEG]

/-- A label is a Go string, i.e. a byte string. -/
abbrev Label := List Nat

/-- The loop body of `NextLabel`, processing the byte string from its
last byte towards its first (the input here is the reversed string,
and the output is the reversed result): each digit gets the incoming
carry added; a digit above `z` (122) becomes `a` (97) with carry 1;
a final leftover carry appends a leading `a`. -/
def nextLabelAux : List Nat → Nat → List Nat
  | [], carry => if carry = 1 then [97] else []
  | d :: ds, carry =>
    if d + carry > 122 then 97 :: nextLabelAux ds 1 else (d + carry) :: nextLabelAux ds 0

/-- Function `NextLabel` from the source: given a label, return the next label
in the base-26 letter sequence, starting the scan with carry 1 at the
last byte. -/
def NextLabel (label : Label) : Label :=
  (nextLabelAux label.reverse 1).reverse

/-- The loop of `MakeLabels`: walk the instructions with their index,
assigning the current label to every slot whose opcode field is
`OP_JUMP_TGT` and stepping the label with `NextLabel`. -/
def makeLabelsAux : List Instruction → Nat → Label → List (Nat × Label)
  | [], _, _ => []
  | inst :: rest, i, label =>
    if inst.Op = OP_JUMP_TGT then
      (i, label) :: makeLabelsAux rest (i + 1) (NextLabel label)
    else
      makeLabelsAux rest (i + 1) label

/-- Function `MakeLabels` from the source: the map from slot index to label,
modelled as the association list of insertions, starting from label
"a" (byte 97). -/
def MakeLabels (instrs : List Instruction) : List (Nat × Label) :=
  makeLabelsAux instrs 0 [97]

/-- Lookup in the modelled label map. -/
def lookupLabel : List (Nat × Label) → Nat → Option Label
  | [], _ => none
  | (k, v) :: rest, key => if key = k then some v else lookupLabel rest key

/-- A Go map read returns the zero value (the empty string) for a
missing key. -/
def lookupLabelD (labels : List (Nat × Label)) (key : Nat) : Label :=
  (lookupLabel labels key).getD []

/-! ### Disassembler data model (instructions package) -/

/-- One disassembled output slot.  `nil` is the zero value of the Go
interface type, the content of slots never assigned to. -/
inductive Entry where
  | nil
  | comment (index : Nat)
  | jumpTarget (label : Label) (jumpee : Nat)
  | plain (line : Nat) (op : Nat)
  | jump (line : Nat) (op : Nat) (targetLabel : Label) (target : Nat)
  | arg (line : Nat) (op : Nat) (argument : Nat) (indirect : Bool)
deriving DecidableEq, Repr

/-- The visible line number carried by an entry, if any. -/
def lineOf : Entry → Option Nat
  | .plain line _ => some line
  | .jump line _ _ _ => some line
  | .arg line _ _ _ => some line
  | _ => none

/-- One iteration of the `Disassemble` loop at slot `i` holding `inst`,
acting on the state (output slice, running line number `instNum`).
The switch cases are tested in source order.  The write
`disassembled[inst.Arg] = DisassembleJumpTarget{...}` panics when
`inst.Arg` is out of bounds, modelled as `none`. -/
def disassembleStep (labels : List (Nat × Label)) (st : List Entry × Nat)
    (i : Nat) (inst : Instruction) : Option (List Entry × Nat) :=
  if 0 < inst.Comment then
    some (st.1.set i (Entry.comment inst.Op), st.2)
  else if inst.Op = OP_JUMP_TGT then
    some st
  else if InstructionsWithLabelOps.contains inst.Op then
    (if inst.Arg < st.1.length then
      some ((st.1.set i
          (Entry.jump st.2 inst.Op (lookupLabelD labels inst.Arg) inst.Arg)).set
          inst.Arg (Entry.jumpTarget (lookupLabelD labels inst.Arg) i),
        st.2 + 1)
     else none)
  else if InstructionsWithArgOps.contains inst.Op then
    some (st.1.set i (Entry.arg st.2 inst.Op inst.Arg (inst.Mode == MODE_INDIRECT)), st.2 + 1)
  else if InstrunctionMnemonicsOps.contains inst.Op then
    some (st.1.set i (Entry.plain st.2 inst.Op), st.2 + 1)
  else
    some (st.1, st.2 + 1)

/-- The `Disassemble` loop over the remaining instructions, `i` being
the index of the first of them. -/
def disassembleAux (labels : List (Nat × Label)) :
    List Instruction → Nat → List Entry × Nat → Option (List Entry × Nat)
  | [], _, st => some st
  | inst :: rest, i, st =>
    match disassembleStep labels st i inst with
    | none => none
    | some st2 => disassembleAux labels rest (i + 1) st2

/-- Function `Disassemble` from the source: label pre-pass, then the emission
loop over an output slice of `nil` entries of the input's length, with
the line counter starting at 1. -/
def Disassemble (instrs : List Instruction) : Option (List Entry) :=
  (disassembleAux (MakeLabels instrs) instrs 0
      (List.replicate instrs.length Entry.nil, 1)).map (fun st => st.1)

/-! ### Byte-layout addressing (profile package) -/

def FILE_HEADER_OFFSET : Int := 0

def FILE_HEADER_SIZE : Int := 36

def FLOOR_HEADER_SIZE : Int := 40

def FLOOR_TAB_SIZE : Int := 46252

def INSTRUCTIONS_SIZE : Int := 4100

/-- Function `FloorStartAddr` from the source (the `profile` argument is
accepted but unused, as in the source). -/
def FloorStartAddr (profile floorIndex : Int) : Int :=
  FILE_HEADER_OFFSET + FILE_HEADER_SIZE + floorIndex * (FLOOR_HEADER_SIZE + FLOOR_TAB_SIZE * 3)

/-- Function `TabStartAddr` from the source. -/
def TabStartAddr (profile floorIndex tab : Int) : Int :=
  FloorStartAddr profile floorIndex + FLOOR_HEADER_SIZE + FLOOR_TAB_SIZE * tab

/-- The missing (cut-scene) floors, with the trailing `-1` sentinel. -/
def missingFloors : List Int := [5, 15, 18, 27, 33, -1]

/-- The `floorToIdx` permutation table. -/
def floorToIdx : List (Int × Int) := [(36, 39), (37, 36), (38, 40), (39, 37), (40, 41), (41, 38)]

/-- Table `idxToFloor`, the reverse of `floorToIdx`, built in `init`. -/
def idxToFloor : List (Int × Int) := [(39, 36), (36, 37), (40, 38), (37, 39), (41, 40), (38, 41)]

/-- Lookup in a Go `map[int]int`, with the found flag as `Option`. -/
def lookupInt : List (Int × Int) → Int → Option Int
  | [], _ => none
  | (k, v) :: rest, key => if key = k then some v else lookupInt rest key

/-- The Go loop `for i, m = range l { if cond m i { break } }`,
returning the final value of `i`: the index at which the condition
first held, or the last index when it never held (0 for an empty
list, where the loop body never runs). -/
def rangeBreak (cond : Int → Nat → Bool) : List Int → Nat → Nat
  | [], i => i
  | m :: ms, i =>
    if cond m i then i
    else
      match ms with
      | [] => i
      | _ :: _ => rangeBreak cond ms (i + 1)

/-- Function `FloorToIndex` from the source: apply the permutation table, then
subtract one more than the break index of the missing-floor scan. -/
def FloorToIndex (floor : Int) : Int :=
  let f := match lookupInt floorToIdx floor with
    | some adjusted => adjusted
    | none => floor
  let i := rangeBreak (fun m _ => decide (f < m)) missingFloors 0
  f - (i : Int) - 1

/-- Function `IndexToFloor` from the source: the reverse correction. -/
def IndexToFloor (index : Int) : Int :=
  let i := rangeBreak (fun m j => decide (index < m - 1 - (j : Int))) missingFloors 0
  let f := index + (i : Int) + 1
  match lookupInt idxToFloor f with
  | some adjusted => adjusted
  | none => f

/-! ### Stream model and comment decoders (instructions package) -/

/-- A positioned seekable byte stream: the bytes and the cursor (a Go
`int64`). -/
structure RdState where
  data : List Nat
  pos : Int
deriving DecidableEq, Repr

/-- Read `n` bytes at the cursor; a read past the available bytes (or
at a negative cursor) fails, as `binary.Read` does. -/
def readBytes (n : Nat) (st : RdState) : Option (List Nat × RdState) :=
  if 0 ≤ st.pos ∧ st.pos.toNat + n ≤ st.data.length then
    some ((st.data.drop st.pos.toNat).take n, ⟨st.data, st.pos + (n : Int)⟩)
  else none

/-- Little-endian value of a byte list (each byte taken mod 256). -/
def leVal : List Nat → Nat
  | [] => 0
  | b :: bs => b % 256 + 256 * leVal bs

/-- Read a little-endian uint32. -/
def readU32 (st : RdState) : Option (Nat × RdState) :=
  match readBytes 4 st with
  | none => none
  | some p => some (leVal p.1, p.2)

/-- A raw comment entry is a `[4]byte` value. -/
abbrev RawPoint := List Nat

/-- A raw comment, a list of its 4-byte entries. -/
abbrev RawComment := List RawPoint

/-- Read `k` raw 4-byte entries. -/
def readEntries : Nat → RdState → Option (RawComment × RdState)
  | 0, st => some ([], st)
  | k + 1, st =>
    match readBytes 4 st with
    | none => none
    | some p =>
      match readEntries k p.2 with
      | none => none
      | some q => some (p.1 :: q.1, q.2)

/-- The padding seek of `DecodeRawComments`: `int64(1024 - K*4)`,
where `K*4` and the subtraction are uint32 arithmetic, then widened
to a signed 64-bit offset. -/
def skipAmount (k : Nat) : Int :=
  (((1024 + 4294967296 - (4 * k) % 4294967296) % 4294967296 : Nat) : Int)

/-- One iteration of the `DecodeRawComments` loop: read the uint32
entry count, read that many 4-byte entries, then seek forward by the
padding amount relative to the cursor. -/
def decodeOneComment (st : RdState) : Option (RawComment × RdState) :=
  match readU32 st with
  | none => none
  | some p =>
    match readEntries p.1 p.2 with
    | none => none
    | some q => some (q.1, ⟨q.2.data, q.2.pos + skipAmount p.1⟩)

/-- The comment loop of `DecodeRawComments`, for a declared count. -/
def decodeRawCommentsAux : Nat → RdState → Option (List RawComment × RdState)
  | 0, st => some ([], st)
  | m + 1, st =>
    match decodeOneComment st with
    | none => none
    | some p =>
      match decodeRawCommentsAux m p.2 with
      | none => none
      | some q => some (p.1 :: q.1, q.2)

/-- Function `DecodeRawComments` from the source: read the uint32 comment
count, then decode that many comment records. -/
def DecodeRawComments (st : RdState) : Option (List RawComment × RdState) :=
  match readU32 st with
  | none => none
  | some p => decodeRawCommentsAux p.1 p.2

/-- A decoded comment point: two little-endian uint16 coordinates. -/
structure CommentPoint where
  X : Nat
  Y : Nat
deriving DecidableEq, Repr

/-- Decode a raw 4-byte entry into a point, little-endian. -/
def decodePoint (p : RawPoint) : CommentPoint :=
  ⟨p.getD 0 0 % 256 + 256 * (p.getD 1 0 % 256), p.getD 2 0 % 256 + 256 * (p.getD 3 0 % 256)⟩

/-- The scan of one raw comment in `DecodeComments`, carrying the
currently open line: an all-zero entry closes the open line (appending
it to the comment), every other entry is decoded and appended to the
open line; at end of input the accumulated open line is not appended
(the loop ends and only `comment` is kept). -/
def decodeCommentLines : List RawPoint → List CommentPoint → List (List CommentPoint)
  | [], _ => []
  | p :: ps, line =>
    if p = [0, 0, 0, 0] then line :: decodeCommentLines ps []
    else decodeCommentLines ps (line ++ [decodePoint p])

/-- Function `DecodeComments` from the source: decode each raw comment into its
list of lines. -/
def DecodeComments (raws : List RawComment) : List (List (List CommentPoint)) :=
  raws.map (fun rc => decodeCommentLines rc [])

/-! ### Helper lemmas for the stream decoders -/

lemma readBytes_some {n : Nat} {st : RdState} {bs : List Nat} {st' : RdState}
    (h : readBytes n st = some (bs, st')) :
    st'.pos = st.pos + (n : Int) ∧ st'.data = st.data := by
  unfold readBytes at h
  split at h
  · cases h
    exact ⟨rfl, rfl⟩
  · cases h

lemma readU32_some {st : RdState} {k : Nat} {st' : RdState}
    (h : readU32 st = some (k, st')) :
    st'.pos = st.pos + 4 ∧ st'.data = st.data := by
  unfold readU32 at h
  cases hb : readBytes 4 st with
  | none => rw [hb] at h; simp at h
  | some p =>
    rw [hb] at h
    simp only [Option.some.injEq, Prod.mk.injEq] at h
    rw [← h.2]
    exact readBytes_some hb

lemma readEntries_some :
    ∀ (k : Nat) (st : RdState) (ec : RawComment) (st' : RdState),
      readEntries k st = some (ec, st') →
      st'.pos = st.pos + 4 * (k : Int) ∧ st'.data = st.data := by
  intro k
  induction k with
  | zero =>
    intro st ec st' h
    unfold readEntries at h
    simp only [Option.some.injEq, Prod.mk.injEq] at h
    rw [← h.2]
    simp
  | succ k ih =>
    intro st ec st' h
    unfold readEntries at h
    split at h
    · simp at h
    · next p hb =>
      split at h
      · simp at h
      · next q he =>
        simp only [Option.some.injEq, Prod.mk.injEq] at h
        have h1 := readBytes_some hb
        have h2 := ih p.2 q.1 q.2 he
        rw [← h.2]
        refine ⟨?_, by rw [h2.2, h1.2]⟩
        rw [h2.1, h1.1]
        push_cast
        ring

lemma skipAmount_small {k : Nat} (hk : k ≤ 256) :
    skipAmount k = ((1024 - 4 * k : Nat) : Int) := by
  unfold skipAmount
  omega

/-! ### Claim C2: comment record stream advance -/

/-- C2 (amended): for a comment record declaring `K ≤ 256` entries,
`DecodeRawComments` advances the stream by exactly 1028 bytes in
total for that comment — 4 bytes of count, `4 K` bytes of entries and
a forward seek of `1024 - 4 K` bytes — not 1024 bytes. -/
theorem C2_comment_advance :
    ∀ (st st1 : RdState) (k : Nat) (res : RawComment × RdState),
      readU32 st = some (k, st1) → k ≤ 256 →
      decodeOneComment st = some res →
      res.2.pos = st.pos + 1028 := by
  intro st st1 k res hread hk hdec
  unfold decodeOneComment at hdec
  split at hdec
  · simp at hdec
  · next p hp =>
    have hpk : (k, st1) = p := by
      rw [hread] at hp
      exact Option.some.inj hp
    subst hpk
    split at hdec
    · simp at hdec
    · next q he =>
      simp only [Option.some.injEq] at hdec
      have h1 := readU32_some hread
      have h2 := readEntries_some k st1 q.1 q.2 he
      rw [← hdec]
      show q.2.pos + skipAmount k = st.pos + 1028
      rw [skipAmount_small hk, h2.1, h1.1]
      omega

/-- Counterexample to C2 as stated: for the comment record declaring
`K = 2` entries, the stream advances by 1028 bytes, not 1024. -/
theorem C2_counterexample :
    (decodeOneComment ⟨[2, 0, 0, 0, 1, 0, 1, 0, 2, 0, 2, 0], 0⟩).map (fun r => r.2.pos)
      = some 1028 ∧ (1028 : Int) ≠ 0 + 1024 := by
  constructor
  · decide
  · decide

/-- Witness for C2 on the concrete `K = 2` comment record. -/
theorem C2_comment_advance_witness :
    (RdState.mk [2, 0, 0, 0, 1, 0, 1, 0, 2, 0, 2, 0] 1028).pos
      = (RdState.mk [2, 0, 0, 0, 1, 0, 1, 0, 2, 0, 2, 0] 0).pos + 1028 :=
  C2_comment_advance ⟨[2, 0, 0, 0, 1, 0, 1, 0, 2, 0, 2, 0], 0⟩
    ⟨[2, 0, 0, 0, 1, 0, 1, 0, 2, 0, 2, 0], 4⟩ 2
    ([[1, 0, 1, 0], [2, 0, 2, 0]], ⟨[2, 0, 0, 0, 1, 0, 1, 0, 2, 0, 2, 0], 1028⟩)
    (by decide) (by decide) (by decide)

/-! ### Claim C10: the padding seek in unsigned 32-bit arithmetic -/

/-- C10: the padding skip is `(1024 - 4 K) mod 2 ^ 32` widened to a
signed offset, hence never negative; for `K > 256` the exact padding
remainder would be negative (a backward seek), but the computed seek
is non-negative, and in the non-wrapping range it is
`2 ^ 32 - (4 K - 1024)`, i.e. nearly `2 ^ 32` bytes forward. -/
theorem C10_skip_unsigned :
    ∀ k : Nat,
      skipAmount k = (1024 - 4 * (k : Int)) % 4294967296 ∧
      0 ≤ skipAmount k ∧
      (256 < k → 1024 - 4 * (k : Int) < 0 ∧
        (k ≤ 1073741824 → skipAmount k = 4294967296 - (4 * (k : Int) - 1024))) := by
  intro k
  unfold skipAmount
  refine ⟨by omega, by omega, fun h => ⟨by omega, fun h2 => by omega⟩⟩

/-- Witness for C10 at `K = 257`: the seek is `2 ^ 32 - 4` bytes
forward. -/
theorem C10_skip_unsigned_witness :
    skipAmount 257 = 4294967296 - (4 * (257 : Int) - 1024) :=
  (((C10_skip_unsigned 257).2.2 (by norm_num)).2 (by norm_num))

/-! ### Claim C1: comment geometry decoding -/

lemma decodeCommentLines_append_sentinel :
    ∀ (ps rest : List RawPoint) (line : List CommentPoint),
      (∀ p ∈ ps, p ≠ [0, 0, 0, 0]) →
      decodeCommentLines (ps ++ [0, 0, 0, 0] :: rest) line
        = (line ++ ps.map decodePoint) :: decodeCommentLines rest [] := by
  intro ps
  induction ps with
  | nil =>
    intro rest line _
    simp [decodeCommentLines]
  | cons p ps ih =>
    intro rest line h
    have hp : p ≠ [0, 0, 0, 0] := h p (by simp)
    have step : decodeCommentLines ((p :: ps) ++ [0, 0, 0, 0] :: rest) line
        = decodeCommentLines (ps ++ [0, 0, 0, 0] :: rest) (line ++ [decodePoint p]) := by
      simp [decodeCommentLines, hp]
    rw [step, ih rest (line ++ [decodePoint p]) (fun q hq => h q (by simp [hq]))]
    simp

lemma decodeCommentLines_no_sentinel :
    ∀ (ps : List RawPoint) (line : List CommentPoint),
      (∀ p ∈ ps, p ≠ [0, 0, 0, 0]) →
      decodeCommentLines ps line = [] := by
  intro ps
  induction ps with
  | nil => intro line _; rfl
  | cons p ps ih =>
    intro line h
    have hp : p ≠ [0, 0, 0, 0] := h p (by simp)
    simp only [decodeCommentLines, if_neg hp]
    exact ih _ (fun q hq => h q (by simp [hq]))

/-- C1 (amended): `DecodeComments` closes a polyline at each all-zero
sentinel entry, but points accumulated at end of input without a
trailing sentinel are discarded, not emitted as a final line; in
particular the raw entry list `[(1,1),(2,2),(0,0,0,0),(5,5)]` decodes
to the single line `[[(1,1),(2,2)]]`, the trailing dot being lost. -/
theorem C1_comment_geometry :
    ∀ (ps rest : List RawPoint) (line : List CommentPoint),
      (∀ p ∈ ps, p ≠ [0, 0, 0, 0]) →
      (decodeCommentLines (ps ++ [0, 0, 0, 0] :: rest) line
          = (line ++ ps.map decodePoint) :: decodeCommentLines rest [] ∧
        decodeCommentLines ps line = [] ∧
        DecodeComments [[[1, 0, 1, 0], [2, 0, 2, 0], [0, 0, 0, 0], [5, 0, 5, 0]]]
          = [[[⟨1, 1⟩, ⟨2, 2⟩]]]) := by
  intro ps rest line h
  exact ⟨decodeCommentLines_append_sentinel ps rest line h,
    decodeCommentLines_no_sentinel ps line h, by decide⟩

/-- Counterexample to C1 as stated: the example raw comment decodes to
one line, not to the two lines `[[(1,1),(2,2)],[(5,5)]]` the claim
requires. -/
theorem C1_counterexample :
    DecodeComments [[[1, 0, 1, 0], [2, 0, 2, 0], [0, 0, 0, 0], [5, 0, 5, 0]]]
        = [[[⟨1, 1⟩, ⟨2, 2⟩]]] ∧
      ([[[⟨1, 1⟩, ⟨2, 2⟩]]] : List (List (List CommentPoint)))
        ≠ [[[⟨1, 1⟩, ⟨2, 2⟩], [⟨5, 5⟩]]] := by
  constructor
  · decide
  · decide

/-- Witness for C1 on a one-point line before a sentinel. -/
theorem C1_comment_geometry_witness :
    decodeCommentLines ([[1, 0, 1, 0]] ++ [0, 0, 0, 0] :: []) []
        = ([] ++ ([[1, 0, 1, 0]] : List RawPoint).map decodePoint) :: decodeCommentLines [] [] ∧
      decodeCommentLines [[1, 0, 1, 0]] [] = [] ∧
      DecodeComments [[[1, 0, 1, 0], [2, 0, 2, 0], [0, 0, 0, 0], [5, 0, 5, 0]]]
        = [[[⟨1, 1⟩, ⟨2, 2⟩]]] :=
  C1_comment_geometry [[1, 0, 1, 0]] [] [] (by decide)

/-! ### Claim C8: tab offset formula -/

/-- C8: for every floor index `i` and tab index `t`, `TabStartAddr`
returns `36 + i * (40 + 3 * 46252) + 40 + t * 46252`, with the format
constants 36 (file header), 40 (floor header), 46252 (tab block). -/
theorem C8_tab_offsets :
    ∀ p i t : Int,
      TabStartAddr p i t = 36 + i * (40 + 3 * 46252) + 40 + t * 46252 ∧
      FILE_HEADER_SIZE = 36 ∧ FLOOR_HEADER_SIZE = 40 ∧ FLOOR_TAB_SIZE = 46252 := by
  intro p i t
  refine ⟨?_, rfl, rfl, rfl⟩
  show FILE_HEADER_OFFSET + FILE_HEADER_SIZE + i * (FLOOR_HEADER_SIZE + FLOOR_TAB_SIZE * 3) +
      FLOOR_HEADER_SIZE + FLOOR_TAB_SIZE * t = _
  show (0 : Int) + 36 + i * (40 + 46252 * 3) + 40 + 46252 * t = _
  ring

/-! ### Claim C5: floor/index round trip -/

/-- C5: for every in-game floor number `n` in 1..41 that is not a
cut-scene floor, `IndexToFloor (FloorToIndex n) = n`, and conversely
`FloorToIndex (IndexToFloor i) = i` for every valid on-disk index
`i` in 0..35. -/
theorem C5_floor_roundtrip :
    (∀ n : Nat, n < 42 → 1 ≤ n → (n : Int) ∉ ([5, 15, 18, 27, 33] : List Int) →
      IndexToFloor (FloorToIndex (n : Int)) = (n : Int)) ∧
    (∀ i : Nat, i < 36 → FloorToIndex (IndexToFloor (i : Int)) = (i : Int)) := by
  constructor
  · decide
  · decide

/-- Witness for C5 at floor 7 and index 0. -/
theorem C5_floor_roundtrip_witness :
    IndexToFloor (FloorToIndex (7 : Int)) = (7 : Int) ∧
    FloorToIndex (IndexToFloor (0 : Int)) = (0 : Int) :=
  ⟨C5_floor_roundtrip.1 7 (by decide) (by decide) (by decide),
   C5_floor_roundtrip.2 0 (by decide)⟩

/-! ### Label sequence: value function and injectivity -/

/-- Bijective base-26 value of a reversed label byte string:
"a" is 1, "z" is 26, "aa" is 27, and so on. -/
def labelValAux : List Nat → Nat
  | [] => 0
  | d :: ds => (d - 96) + 26 * labelValAux ds

/-- Bijective base-26 value of a label. -/
def labelVal (l : Label) : Nat := labelValAux l.reverse

lemma nextLabelAux_valid :
    ∀ (ds : List Nat) (c : Nat), c ≤ 1 → (∀ d ∈ ds, 97 ≤ d ∧ d ≤ 122) →
      ∀ d ∈ nextLabelAux ds c, 97 ≤ d ∧ d ≤ 122 := by
  intro ds
  induction ds with
  | nil =>
    intro c _ _ d hd
    unfold nextLabelAux at hd
    by_cases hc : c = 1
    · rw [if_pos hc] at hd
      simp at hd
      omega
    · rw [if_neg hc] at hd
      cases hd
  | cons e ds ih =>
    intro c hc h d hd
    have he := h e (by simp)
    have hds : ∀ d ∈ ds, 97 ≤ d ∧ d ≤ 122 := fun d hd => h d (by simp [hd])
    unfold nextLabelAux at hd
    by_cases hgt : e + c > 122
    · rw [if_pos hgt] at hd
      rcases List.mem_cons.mp hd with h1 | h2
      · omega
      · exact ih 1 (by omega) hds d h2
    · rw [if_neg hgt] at hd
      rcases List.mem_cons.mp hd with h1 | h2
      · omega
      · exact ih 0 (by omega) hds d h2

lemma nextLabelAux_val :
    ∀ ds : List Nat, (∀ d ∈ ds, 97 ≤ d ∧ d ≤ 122) →
      labelValAux (nextLabelAux ds 1) = labelValAux ds + 1 ∧
      labelValAux (nextLabelAux ds 0) = labelValAux ds := by
  intro ds
  induction ds with
  | nil =>
    intro _
    constructor
    · decide
    · decide
  | cons e ds ih =>
    intro h
    have he := h e (by simp)
    have ih2 := ih (fun d hd => h d (by simp [hd]))
    constructor
    · by_cases hgt : e + 1 > 122
      · simp only [nextLabelAux, if_pos hgt, labelValAux]
        rw [ih2.1]
        omega
      · simp only [nextLabelAux, if_neg hgt, labelValAux]
        rw [ih2.2]
        omega
    · have hgt : ¬ e + 0 > 122 := by omega
      simp only [nextLabelAux, if_neg hgt, labelValAux]
      rw [ih2.2]
      omega

lemma NextLabel_props :
    ∀ l : Label, (∀ d ∈ l, 97 ≤ d ∧ d ≤ 122) →
      labelVal (NextLabel l) = labelVal l + 1 ∧
      (∀ d ∈ NextLabel l, 97 ≤ d ∧ d ≤ 122) := by
  intro l h
  have hrev : ∀ d ∈ l.reverse, 97 ≤ d ∧ d ≤ 122 :=
    fun d hd => h d (List.mem_reverse.mp hd)
  constructor
  · show labelValAux (NextLabel l).reverse = labelValAux l.reverse + 1
    unfold NextLabel
    rw [List.reverse_reverse]
    exact (nextLabelAux_val l.reverse hrev).1
  · intro d hd
    unfold NextLabel at hd
    exact nextLabelAux_valid l.reverse 1 (by omega) hrev d (List.mem_reverse.mp hd)

lemma iterate_label_props :
    ∀ n : Nat, labelVal (NextLabel^[n] [97]) = n + 1 ∧
      (∀ d ∈ NextLabel^[n] [97], 97 ≤ d ∧ d ≤ 122) := by
  intro n
  induction n with
  | zero =>
    constructor
    · decide
    · decide
  | succ n ih =>
    rw [Function.iterate_succ_apply']
    have := NextLabel_props (NextLabel^[n] [97]) ih.2
    exact ⟨by rw [this.1, ih.1], this.2⟩

lemma iterate_label_inj :
    ∀ n m : Nat, NextLabel^[n] [97] = NextLabel^[m] [97] → n = m := by
  intro n m h
  have hn := (iterate_label_props n).1
  have hm := (iterate_label_props m).1
  rw [h, hm] at hn
  omega

/-! ### Characterization of the label pre-pass -/

/-- Whether the slot at index `j` holds the `OP_JUMP_TGT` opcode. -/
def isTgtAt (instrs : List Instruction) (j : Nat) : Bool :=
  match instrs[j]? with
  | some inst => inst.Op == OP_JUMP_TGT
  | none => false

/-- Number of `OP_JUMP_TGT` slots among the first `d` slots. -/
def tgtRank : List Instruction → Nat → Nat
  | [], _ => 0
  | _ :: _, 0 => 0
  | inst :: rest, d + 1 => (if inst.Op = OP_JUMP_TGT then 1 else 0) + tgtRank rest d

lemma makeLabelsAux_lookup_lt :
    ∀ (l : List Instruction) (i key : Nat) (lab : Label), key < i →
      lookupLabel (makeLabelsAux l i lab) key = none := by
  intro l
  induction l with
  | nil => intro i key lab _; rfl
  | cons inst rest ih =>
    intro i key lab hk
    unfold makeLabelsAux
    by_cases hop : inst.Op = OP_JUMP_TGT
    · rw [if_pos hop]
      unfold lookupLabel
      rw [if_neg (by omega)]
      exact ih (i + 1) key (NextLabel lab) (by omega)
    · rw [if_neg hop]
      exact ih (i + 1) key lab (by omega)

lemma makeLabelsAux_lookup :
    ∀ (l : List Instruction) (i d : Nat) (lab : Label),
      lookupLabel (makeLabelsAux l i lab) (i + d)
        = if isTgtAt l d then some (NextLabel^[tgtRank l d] lab) else none := by
  intro l
  induction l with
  | nil =>
    intro i d lab
    simp [makeLabelsAux, lookupLabel, isTgtAt]
  | cons inst rest ih =>
    intro i d lab
    by_cases hop : inst.Op = OP_JUMP_TGT
    · cases d with
      | zero =>
        simp only [makeLabelsAux, if_pos hop, Nat.add_zero]
        unfold lookupLabel
        rw [if_pos rfl]
        have ht : isTgtAt (inst :: rest) 0 = true := by simp [isTgtAt, hop]
        rw [ht]
        simp [tgtRank]
      | succ e =>
        simp only [makeLabelsAux, if_pos hop]
        unfold lookupLabel
        rw [if_neg (by omega)]
        have heq : i + (e + 1) = (i + 1) + e := by omega
        rw [heq, ih (i + 1) e (NextLabel lab)]
        have h1 : isTgtAt (inst :: rest) (e + 1) = isTgtAt rest e := by
          simp [isTgtAt]
        have h2 : tgtRank (inst :: rest) (e + 1) = 1 + tgtRank rest e := by
          simp [tgtRank, hop]
        rw [h1, h2]
        by_cases ht : isTgtAt rest e
        · rw [if_pos ht, if_pos ht]
          rw [Nat.add_comm 1 (tgtRank rest e), Function.iterate_succ_apply]
        · rw [if_neg (by simp [ht]), if_neg (by simp [ht])]
    · cases d with
      | zero =>
        simp only [makeLabelsAux, if_neg hop, Nat.add_zero]
        rw [makeLabelsAux_lookup_lt rest (i + 1) i lab (by omega)]
        have ht : isTgtAt (inst :: rest) 0 = false := by simp [isTgtAt, hop]
        rw [ht]
        simp
      | succ e =>
        simp only [makeLabelsAux, if_neg hop]
        have heq : i + (e + 1) = (i + 1) + e := by omega
        rw [heq, ih (i + 1) e lab]
        have h1 : isTgtAt (inst :: rest) (e + 1) = isTgtAt rest e := by
          simp [isTgtAt]
        have h2 : tgtRank (inst :: rest) (e + 1) = tgtRank rest e := by
          simp [tgtRank, hop]
        rw [h1, h2]

/-! ### Claim C3: the label pre-pass -/

/-- C3 (amended): `MakeLabels` maps exactly the slots whose opcode
field is `OP_JUMP_TGT` — not the slots that appear as jump arguments —
assigning to the rank-`r` such slot (in increasing slot order) the
`r`-th label of the base-26 sequence "a","b",…; these labels are
pairwise distinct, so there is exactly one label per target slot. -/
theorem C3_label_prepass :
    ∀ (instrs : List Instruction) (j n m : Nat),
      (lookupLabel (MakeLabels instrs) j
          = if isTgtAt instrs j then some (NextLabel^[tgtRank instrs j] [97]) else none) ∧
      (NextLabel^[n] [97] = NextLabel^[m] [97] → n = m) := by
  intro instrs j n m
  constructor
  · have h := makeLabelsAux_lookup instrs 0 j [97]
    rw [Nat.zero_add] at h
    exact h
  · exact iterate_label_inj n m

/-- Counterexample to C3 as stated: in `[JUMP 1, INBOX]` slot 1 is
the argument of a jump-family instruction, yet `MakeLabels` assigns
it no label (the mapping is empty), because slot 1 does not hold the
`OP_JUMP_TGT` opcode. -/
theorem C3_counterexample :
    MakeLabels [⟨0, 8, 0, 1⟩, ⟨0, 0, 0, 0⟩] = [] ∧
      lookupLabel (MakeLabels [⟨0, 8, 0, 1⟩, ⟨0, 0, 0, 0⟩]) 1 = none ∧
      InstructionsWithLabelOps.contains (8 : Nat) = true := by
  refine ⟨?_, ?_, ?_⟩
  · decide
  · decide
  · decide

/-- Witness for C3 on the single-slot jump-target program. -/
theorem C3_label_prepass_witness :
    (lookupLabel (MakeLabels [⟨0, 13, 0, 0⟩]) 0
        = if isTgtAt [⟨0, 13, 0, 0⟩] 0
          then some (NextLabel^[tgtRank [⟨0, 13, 0, 0⟩] 0] [97]) else none) ∧
      (0 : Nat) = 0 :=
  ⟨(C3_label_prepass [⟨0, 13, 0, 0⟩] 0 0 0).1,
   (C3_label_prepass [⟨0, 13, 0, 0⟩] 0 0 0).2 rfl⟩

/-! ### Helper lemmas for the disassembler -/

lemma disassembleStep_some_length :
    ∀ {labels : List (Nat × Label)} {st : List Entry × Nat} {i : Nat}
      {inst : Instruction} {st2 : List Entry × Nat},
      disassembleStep labels st i inst = some st2 → st2.1.length = st.1.length := by
  intro labels st i inst st2 h
  unfold disassembleStep at h
  split_ifs at h <;> cases h <;> simp

lemma disassembleStep_isSome :
    ∀ (labels : List (Nat × Label)) (st : List Entry × Nat) (i : Nat) (inst : Instruction),
      (inst.Comment = 0 → InstructionsWithLabelOps.contains inst.Op → inst.Arg < st.1.length) →
      ∃ st2, disassembleStep labels st i inst = some st2 := by
  intro labels st i inst h
  unfold disassembleStep
  split_ifs with h1 h2 h3 h4 <;> try exact ⟨_, rfl⟩
  exact absurd (h (by omega) h3) h4

lemma disassembleStep_none_of_oob :
    ∀ (labels : List (Nat × Label)) (st : List Entry × Nat) (i : Nat) (inst : Instruction),
      inst.Comment = 0 → InstructionsWithLabelOps.contains inst.Op →
      ¬ inst.Arg < st.1.length →
      disassembleStep labels st i inst = none := by
  intro labels st i inst hc hop harg
  unfold disassembleStep
  have h13 : inst.Op ≠ OP_JUMP_TGT := by
    intro h
    rw [h] at hop
    simp [InstructionsWithLabelOps, OP_JUMP, OP_JUMP_ZERO, OP_JUMP_NEG, OP_JUMP_TGT] at hop
  rw [if_neg (by omega), if_neg h13, if_pos hop, if_neg harg]

lemma disassembleAux_some_length :
    ∀ (labels : List (Nat × Label)) (rest : List Instruction) (i : Nat)
      (st st2 : List Entry × Nat),
      disassembleAux labels rest i st = some st2 → st2.1.length = st.1.length := by
  intro labels rest
  induction rest with
  | nil =>
    intro i st st2 h
    cases h
    rfl
  | cons inst rest ih =>
    intro i st st2 h
    unfold disassembleAux at h
    cases hs : disassembleStep labels st i inst with
    | none => rw [hs] at h; cases h
    | some st3 =>
      rw [hs] at h
      rw [ih (i + 1) st3 st2 h]
      exact disassembleStep_some_length hs

lemma disassembleAux_isSome :
    ∀ (labels : List (Nat × Label)) (rest : List Instruction) (i : Nat)
      (st : List Entry × Nat),
      (∀ inst ∈ rest, inst.Comment = 0 → InstructionsWithLabelOps.contains inst.Op →
        inst.Arg < st.1.length) →
      ∃ st2, disassembleAux labels rest i st = some st2 := by
  intro labels rest
  induction rest with
  | nil => intro i st _; exact ⟨st, rfl⟩
  | cons inst rest ih =>
    intro i st h
    obtain ⟨st3, hs⟩ :=
      disassembleStep_isSome labels st i inst (h inst (by simp))
    obtain ⟨st2, ha⟩ := ih (i + 1) st3
      (fun inst2 hm hc hop => by
        rw [disassembleStep_some_length hs]
        exact h inst2 (by simp [hm]) hc hop)
    refine ⟨st2, ?_⟩
    unfold disassembleAux
    rw [hs]
    exact ha

lemma disassembleAux_jump_bounds :
    ∀ (labels : List (Nat × Label)) (rest : List Instruction) (i : Nat)
      (st st2 : List Entry × Nat),
      disassembleAux labels rest i st = some st2 →
      ∀ inst ∈ rest, inst.Comment = 0 → InstructionsWithLabelOps.contains inst.Op →
        inst.Arg < st.1.length := by
  intro labels rest
  induction rest with
  | nil => intro i st st2 _ inst hm; cases hm
  | cons inst rest ih =>
    intro i st st2 h inst2 hm hc hop
    unfold disassembleAux at h
    cases hs : disassembleStep labels st i inst with
    | none => rw [hs] at h; cases h
    | some st3 =>
      rw [hs] at h
      rcases List.mem_cons.mp hm with hm1 | hm2
      · subst hm1
        by_contra harg
        rw [disassembleStep_none_of_oob labels st i inst2 hc hop harg] at hs
        cases hs
      · rw [← disassembleStep_some_length hs]
        exact ih (i + 1) st3 st2 h inst2 hm2 hc hop

/-! ### Line numbering: definitions -/

/-- Whether the slot at index `j` consumes a visible line number:
its comment flag is zero and its opcode is not `OP_JUMP_TGT`. -/
def emitsAt (instrs : List Instruction) (j : Nat) : Bool :=
  match instrs[j]? with
  | some inst => inst.Comment == 0 && inst.Op != OP_JUMP_TGT
  | none => false

/-- Number of line-consuming slots among the first `i` slots. -/
def cntEmits (instrs : List Instruction) (i : Nat) : Nat :=
  (List.range i).countP (fun j => emitsAt instrs j)

/-- Well-formed program for the line-numbering claim: every slot is a
comment slot or holds a known opcode (a mnemonic or `OP_JUMP_TGT`),
and every jump-family slot's argument is the index of an
`OP_JUMP_TGT` slot. -/
def wf4 (instrs : List Instruction) : Bool :=
  (List.range instrs.length).all fun i =>
    match instrs[i]? with
    | none => true
    | some inst =>
      if inst.Comment = 0 then
        (InstrunctionMnemonicsOps.contains inst.Op || inst.Op == OP_JUMP_TGT) &&
        (!(InstructionsWithLabelOps.contains inst.Op) || isTgtAt instrs inst.Arg)
      else true

/-- Invariant of the emission loop: after the first `bound` slots are
processed, the entry at position `j` carries a line number exactly
when `j` is an already-processed line-consuming slot, and that number
is one more than the count of line-consuming slots before `j`. -/
def linesSpec (instrs : List Instruction) (bound : Nat) (arr : List Entry) : Prop :=
  ∀ j (hj : j < arr.length),
    lineOf arr[j]
      = if j < bound ∧ emitsAt instrs j = true
        then some (1 + cntEmits instrs j) else none

/-! ### Line numbering: basic lemmas -/

lemma emitsAt_false_of_comment {instrs : List Instruction} {i : Nat} {inst : Instruction}
    (hget : instrs[i]? = some inst) (hc : inst.Comment ≠ 0) :
    emitsAt instrs i = false := by
  unfold emitsAt
  rw [hget]
  simp [hc]

lemma emitsAt_false_of_tgt {instrs : List Instruction} {i : Nat} {inst : Instruction}
    (hget : instrs[i]? = some inst) (hop : inst.Op = OP_JUMP_TGT) :
    emitsAt instrs i = false := by
  unfold emitsAt
  rw [hget]
  simp [hop]

lemma emitsAt_true_of {instrs : List Instruction} {i : Nat} {inst : Instruction}
    (hget : instrs[i]? = some inst) (hc : inst.Comment = 0) (hop : inst.Op ≠ OP_JUMP_TGT) :
    emitsAt instrs i = true := by
  unfold emitsAt
  rw [hget]
  simp [hc, hop]

lemma isTgtAt_true_elim {instrs : List Instruction} {a : Nat}
    (h : isTgtAt instrs a = true) :
    ∃ inst, instrs[a]? = some inst ∧ inst.Op = OP_JUMP_TGT := by
  unfold isTgtAt at h
  cases hg : instrs[a]? with
  | none => rw [hg] at h; simp at h
  | some inst =>
    rw [hg] at h
    simp only [beq_iff_eq] at h
    exact ⟨inst, rfl, h⟩

lemma isTgtAt_lt {instrs : List Instruction} {a : Nat}
    (h : isTgtAt instrs a = true) : a < instrs.length := by
  obtain ⟨inst, hg, _⟩ := isTgtAt_true_elim h
  exact (List.getElem?_eq_some.mp hg).1

lemma isTgtAt_emits_false {instrs : List Instruction} {a : Nat}
    (h : isTgtAt instrs a = true) : emitsAt instrs a = false := by
  obtain ⟨inst, hg, hop⟩ := isTgtAt_true_elim h
  exact emitsAt_false_of_tgt hg hop

lemma wf4_spec {instrs : List Instruction} (hwf : wf4 instrs = true)
    {i : Nat} {inst : Instruction}
    (hget : instrs[i]? = some inst) (hc : inst.Comment = 0) :
    (InstrunctionMnemonicsOps.contains inst.Op = true ∨ inst.Op = OP_JUMP_TGT) ∧
    (InstructionsWithLabelOps.contains inst.Op = true → isTgtAt instrs inst.Arg = true) := by
  have hi : i < instrs.length := (List.getElem?_eq_some.mp hget).1
  have hall := List.all_eq_true.mp hwf i (List.mem_range.mpr hi)
  rw [hget] at hall
  simp only [hc, if_true, Bool.and_eq_true, Bool.or_eq_true, beq_iff_eq,
    Bool.not_eq_true', Bool.or_eq_true] at hall
  refine ⟨hall.1, fun hj => ?_⟩
  rcases hall.2 with h | h
  · rw [hj] at h; cases h
  · exact h

lemma cntEmits_succ (instrs : List Instruction) (i : Nat) :
    cntEmits instrs (i + 1)
      = cntEmits instrs i + (if emitsAt instrs i = true then 1 else 0) := by
  unfold cntEmits
  rw [List.range_succ, List.countP_append]
  simp [List.countP_cons]

lemma cntEmits_succ_true {instrs : List Instruction} {i : Nat}
    (h : emitsAt instrs i = true) :
    cntEmits instrs (i + 1) = cntEmits instrs i + 1 := by
  rw [cntEmits_succ, h]
  simp

lemma cntEmits_succ_false {instrs : List Instruction} {i : Nat}
    (h : emitsAt instrs i = false) :
    cntEmits instrs (i + 1) = cntEmits instrs i := by
  rw [cntEmits_succ, h]
  simp

lemma linesSpec_set_nonline {instrs : List Instruction} {bound : Nat} {arr : List Entry}
    {p : Nat} {e : Entry}
    (hsp : linesSpec instrs bound arr) (hem : emitsAt instrs p = false)
    (hnl : lineOf e = none) :
    linesSpec instrs bound (arr.set p e) := by
  intro j hj
  have hj2 : j < arr.length := by simpa using hj
  rw [List.getElem_set]
  by_cases hpj : p = j
  · subst hpj
    rw [if_pos rfl, hnl, if_neg (by simp [hem])]
  · rw [if_neg hpj]
    exact hsp j hj2

lemma linesSpec_set_line {instrs : List Instruction} {i : Nat} {arr : List Entry} {e : Entry}
    (hsp : linesSpec instrs i arr) (hem : emitsAt instrs i = true)
    (hl : lineOf e = some (1 + cntEmits instrs i)) :
    linesSpec instrs (i + 1) (arr.set i e) := by
  intro j hj
  have hj2 : j < arr.length := by simpa using hj
  rw [List.getElem_set]
  by_cases hij : i = j
  · subst hij
    rw [if_pos rfl, hl, if_pos ⟨by omega, hem⟩]
  · rw [if_neg hij, hsp j hj2]
    refine if_congr ?_ rfl rfl
    constructor
    · rintro ⟨h1, h2⟩
      exact ⟨by omega, h2⟩
    · rintro ⟨h1, h2⟩
      exact ⟨by omega, h2⟩

lemma linesSpec_succ_noemit {instrs : List Instruction} {i : Nat} {arr : List Entry}
    (hsp : linesSpec instrs i arr) (hem : emitsAt instrs i = false) :
    linesSpec instrs (i + 1) arr := by
  intro j hj
  rw [hsp j hj]
  by_cases hij : j = i
  · subst hij
    rw [if_neg (by simp [hem]), if_neg (by simp [hem])]
  · refine if_congr ?_ rfl rfl
    constructor
    · rintro ⟨h1, h2⟩
      exact ⟨by omega, h2⟩
    · rintro ⟨h1, h2⟩
      exact ⟨by omega, h2⟩

/-! ### Line numbering: the emission-loop invariant -/

lemma disassembleAux_cons_some {labels : List (Nat × Label)} {inst : Instruction}
    {rest : List Instruction} {i : Nat} {st st2 : List Entry × Nat}
    (hstep : disassembleStep labels st i inst = some st2) :
    disassembleAux labels (inst :: rest) i st = disassembleAux labels rest (i + 1) st2 := by
  conv_lhs => rw [disassembleAux]
  rw [hstep]

lemma disassembleAux_lines (full : List Instruction) (hwf : wf4 full = true) :
    ∀ (rest : List Instruction) (i : Nat) (arr : List Entry) (n : Nat),
      rest = full.drop i →
      arr.length = full.length →
      n = 1 + cntEmits full i →
      linesSpec full i arr →
      ∃ arr2 n2,
        disassembleAux (MakeLabels full) rest i (arr, n) = some (arr2, n2) ∧
        arr2.length = full.length ∧
        linesSpec full full.length arr2 := by
  intro rest
  induction rest with
  | nil =>
    intro i arr n hrest hlen _ hsp
    refine ⟨arr, n, rfl, hlen, ?_⟩
    have hle : full.length ≤ i := List.drop_eq_nil_iff.mp hrest.symm
    intro j hj
    rw [hsp j hj]
    have hjf : j < full.length := by rw [hlen] at hj; exact hj
    by_cases he : emitsAt full j = true
    · rw [if_pos ⟨by omega, he⟩, if_pos ⟨hjf, he⟩]
    · rw [if_neg (by tauto), if_neg (by tauto)]
  | cons inst rest2 ih =>
    intro i arr n hrest hlen hn hsp
    have hlt : i < full.length := by
      by_contra hle
      rw [List.drop_eq_nil_of_le (by omega)] at hrest
      simp at hrest
    have hget : full[i]? = some inst := by
      have h0 : (full.drop i)[0]? = some inst := by rw [← hrest]; simp
      rw [List.getElem?_drop] at h0
      simpa using h0
    have hrest2 : rest2 = full.drop (i + 1) := by
      rw [← List.tail_drop, ← hrest, List.tail_cons]
    by_cases hcom : 0 < inst.Comment
    · -- comment slot: write a Comment entry, line counter unchanged
      have hstep : disassembleStep (MakeLabels full) (arr, n) i inst
          = some (arr.set i (Entry.comment inst.Op), n) := by
        unfold disassembleStep
        rw [if_pos hcom]
      rw [disassembleAux_cons_some hstep]
      have hem : emitsAt full i = false := emitsAt_false_of_comment hget (by omega)
      exact ih (i + 1) (arr.set i (Entry.comment inst.Op)) n hrest2
        (by simpa using hlen)
        (by rw [cntEmits_succ_false hem]; exact hn)
        (linesSpec_succ_noemit (linesSpec_set_nonline hsp hem rfl) hem)
    · have hc0 : inst.Comment = 0 := by omega
      by_cases htgt : inst.Op = OP_JUMP_TGT
      · -- jump-target slot: no write, line counter unchanged
        have hstep : disassembleStep (MakeLabels full) (arr, n) i inst = some (arr, n) := by
          unfold disassembleStep
          rw [if_neg hcom, if_pos htgt]
        rw [disassembleAux_cons_some hstep]
        have hem : emitsAt full i = false := emitsAt_false_of_tgt hget htgt
        exact ih (i + 1) arr n hrest2 hlen
          (by rw [cntEmits_succ_false hem]; exact hn)
          (linesSpec_succ_noemit hsp hem)
      · have hwfi := wf4_spec hwf hget hc0
        have hem : emitsAt full i = true := emitsAt_true_of hget hc0 htgt
        have hnsucc : n + 1 = 1 + cntEmits full (i + 1) := by
          rw [cntEmits_succ_true hem]
          omega
        by_cases hjmp : InstructionsWithLabelOps.contains inst.Op = true
        · -- jump instruction: write the jump entry and the target entry
          have htg := hwfi.2 hjmp
          have harg : inst.Arg < arr.length := by
            rw [hlen]
            exact isTgtAt_lt htg
          have hstep : disassembleStep (MakeLabels full) (arr, n) i inst
              = some ((arr.set i (Entry.jump n inst.Op
                    (lookupLabelD (MakeLabels full) inst.Arg) inst.Arg)).set
                  inst.Arg (Entry.jumpTarget (lookupLabelD (MakeLabels full) inst.Arg) i),
                n + 1) := by
            unfold disassembleStep
            rw [if_neg hcom, if_neg htgt, if_pos hjmp, if_pos harg]
          rw [disassembleAux_cons_some hstep]
          exact ih (i + 1) _ (n + 1) hrest2 (by simpa using hlen) hnsucc
            (linesSpec_set_nonline
              (linesSpec_set_line hsp hem (by rw [lineOf, hn]))
              (isTgtAt_emits_false htg) rfl)
        · by_cases hao : InstructionsWithArgOps.contains inst.Op = true
          · -- argument instruction
            have hstep : disassembleStep (MakeLabels full) (arr, n) i inst
                = some (arr.set i (Entry.arg n inst.Op inst.Arg
                    (inst.Mode == MODE_INDIRECT)), n + 1) := by
              unfold disassembleStep
              rw [if_neg hcom, if_neg htgt, if_neg hjmp, if_pos hao]
            rw [disassembleAux_cons_some hstep]
            exact ih (i + 1) _ (n + 1) hrest2 (by simpa using hlen) hnsucc
              (linesSpec_set_line hsp hem (by rw [lineOf, hn]))
          · -- plain mnemonic (the unknown-opcode path is excluded by wf4)
            have hmn : InstrunctionMnemonicsOps.contains inst.Op = true := by
              rcases hwfi.1 with h | h
              · exact h
              · exact absurd h htgt
            have hstep : disassembleStep (MakeLabels full) (arr, n) i inst
                = some (arr.set i (Entry.plain n inst.Op), n + 1) := by
              unfold disassembleStep
              rw [if_neg hcom, if_neg htgt, if_neg hjmp, if_neg hao, if_pos hmn]
            rw [disassembleAux_cons_some hstep]
            exact ih (i + 1) _ (n + 1) hrest2 (by simpa using hlen) hnsucc
              (linesSpec_set_line hsp hem (by rw [lineOf, hn]))

/-! ### Line numbering: extracting the visible run -/

lemma countP_range_shift (f : Nat → Bool) (n : Nat) :
    (List.range (n + 1)).countP f
      = (if f 0 = true then 1 else 0) + (List.range n).countP (fun k => f (k + 1)) := by
  rw [List.range_succ_eq_map, List.countP_cons, List.countP_map]
  simp only [Function.comp_def, Nat.succ_eq_add_one]
  omega

lemma filterMap_lineOf_eq_range' :
    ∀ (l : List Entry) (f : Nat → Bool) (c : Nat),
      (∀ j (hj : j < l.length), lineOf l[j]
          = if f j = true then some (c + (List.range j).countP f) else none) →
      l.filterMap lineOf = List.range' c ((List.range l.length).countP f) := by
  intro l
  induction l with
  | nil =>
    intro f c _
    simp
  | cons e tl ih =>
    intro f c h
    have h0 := h 0 (by simp)
    simp only [List.getElem_cons_zero, List.range_zero, List.countP_nil,
      Nat.add_zero] at h0
    have htl : ∀ j (hj : j < tl.length), lineOf tl[j]
        = if (fun k => f (k + 1)) j = true
          then some ((if f 0 = true then c + 1 else c)
            + (List.range j).countP (fun k => f (k + 1))) else none := by
      intro j hj
      have hh := h (j + 1) (by simpa using Nat.succ_lt_succ hj)
      rw [List.getElem_cons_succ] at hh
      rw [hh]
      have hcs := countP_range_shift f j
      by_cases hf : f (j + 1) = true
      · rw [if_pos hf, if_pos (show (fun k => f (k + 1)) j = true from hf)]
        by_cases hf0 : f 0 = true
        · rw [if_pos hf0]
          simp [hf0] at hcs
          congr 1
          omega
        · rw [if_neg hf0]
          simp [hf0] at hcs
          congr 1
          omega
      · rw [if_neg hf, if_neg (show ¬ (fun k => f (k + 1)) j = true from hf)]
    have hrec := ih (fun k => f (k + 1)) (if f 0 = true then c + 1 else c) htl
    have hshift := countP_range_shift f tl.length
    by_cases hf0 : f 0 = true
    · rw [if_pos hf0] at h0
      rw [if_pos hf0] at hrec
      simp [hf0] at hshift
      show (e :: tl).filterMap lineOf = _
      simp only [List.filterMap_cons, h0, hrec, List.length_cons]
      rw [hshift,
        Nat.add_comm 1 ((List.range tl.length).countP (fun k => f (k + 1))),
        List.range'_succ]
    · rw [if_neg hf0] at h0
      rw [if_neg hf0] at hrec
      simp [hf0] at hshift
      show (e :: tl).filterMap lineOf = _
      simp only [List.filterMap_cons, h0, hrec, List.length_cons]
      rw [hshift]

/-! ### Claim C4: visible line numbers form a contiguous run -/

/-- C4 (amended): for inputs in which every slot is a comment slot or
holds a known opcode, and every jump-family instruction's argument is
the index of an `OP_JUMP_TGT` slot, the line numbers carried by the
output entries, in output order, are exactly `1, 2, …, m` where `m`
counts the line-consuming slots; `Comment` and `JumpTarget` entries
carry no line number and do not break the run.  (For arbitrary
inputs this fails: an unknown opcode consumes a line number silently,
and a jump to a line-carrying slot overwrites that entry.) -/
theorem C4_line_numbers :
    ∀ (instrs : List Instruction) (out : List Entry),
      wf4 instrs = true →
      Disassemble instrs = some out →
      out.filterMap lineOf
        = List.range' 1 ((List.range instrs.length).countP (fun j => emitsAt instrs j)) := by
  intro instrs out hwf h
  unfold Disassemble at h
  obtain ⟨arr2, n2, haux, hlen2, hsp2⟩ :=
    disassembleAux_lines instrs hwf instrs 0 (List.replicate instrs.length Entry.nil) 1
      (by rw [List.drop_zero]) (by simp) (by simp [cntEmits])
      (by
        intro j hj
        rw [List.getElem_replicate]
        rw [if_neg (by omega)]
        rfl)
  rw [haux] at h
  simp only [Option.map_some', Option.some.injEq] at h
  subst h
  have hres := filterMap_lineOf_eq_range' arr2 (fun j => emitsAt instrs j) 1
    (by
      intro j hj
      have hjf : j < instrs.length := by rw [hlen2] at hj; exact hj
      rw [hsp2 j hj]
      by_cases he : emitsAt instrs j = true
      · rw [if_pos ⟨hjf, he⟩, if_pos he]
        rfl
      · rw [if_neg (by tauto), if_neg he])
  rw [hres, hlen2]

/-- Counterexample to C4 as stated: for `[INBOX, JUMP 0]` the backward
jump overwrites the INBOX entry (which carried line 1) with a
jump-target entry, so the output's line numbers are `[2]`, not the
contiguous run `[1]` starting at 1. -/
theorem C4_counterexample :
    (Disassemble [⟨0, 0, 0, 0⟩, ⟨0, 8, 0, 0⟩]).map (fun out => out.filterMap lineOf)
        = some [2] ∧
      ¬ ([2] : List Nat) = List.range' 1 1 := by
  constructor
  · decide
  · decide

/-- Witness for C4 on the example `[JUMP 2, OUTBOX, JUMP_TARGET]`. -/
theorem C4_line_numbers_witness :
    ([Entry.jump 1 8 [97] 2, Entry.plain 2 1, Entry.jumpTarget [97] 0] : List Entry).filterMap
        lineOf
      = List.range' 1 ((List.range ([⟨0, 8, 0, 2⟩, ⟨0, 1, 0, 0⟩,
          ⟨0, 13, 0, 0⟩] : List Instruction).length).countP
            (fun j => emitsAt [⟨0, 8, 0, 2⟩, ⟨0, 1, 0, 0⟩, ⟨0, 13, 0, 0⟩] j)) :=
  C4_line_numbers [⟨0, 8, 0, 2⟩, ⟨0, 1, 0, 0⟩, ⟨0, 13, 0, 0⟩]
    [Entry.jump 1 8 [97] 2, Entry.plain 2 1, Entry.jumpTarget [97] 0]
    (by decide) (by decide)

/-! ### Claim C6: disassembly length invariant -/

/-- C6: whenever `Disassemble` returns, the output has exactly the
input's length, and every (non-comment) jump instruction's target is
a valid index into the output. -/
theorem C6_disassemble_length :
    ∀ (instrs : List Instruction) (out : List Entry),
      Disassemble instrs = some out →
      out.length = instrs.length ∧
      (∀ inst ∈ instrs, inst.Comment = 0 → InstructionsWithLabelOps.contains inst.Op →
        inst.Arg < out.length) := by
  intro instrs out h
  unfold Disassemble at h
  cases ha : disassembleAux (MakeLabels instrs) instrs 0
      (List.replicate instrs.length Entry.nil, 1) with
  | none => rw [ha] at h; cases h
  | some st2 =>
    rw [ha] at h
    simp only [Option.map_some', Option.some.injEq] at h
    have hlen := disassembleAux_some_length _ _ _ _ _ ha
    simp only [List.length_replicate] at hlen
    have hbound := disassembleAux_jump_bounds _ _ _ _ _ ha
    simp only [List.length_replicate] at hbound
    subst h
    exact ⟨hlen, fun inst hm hc hop => by
      rw [hlen]
      exact hbound inst hm hc hop⟩

/-- Witness for C6 on the three-instruction example
`[JUMP 2, OUTBOX, JUMP_TARGET]`. -/
theorem C6_disassemble_length_witness :
    ([Entry.jump 1 8 [97] 2, Entry.plain 2 1, Entry.jumpTarget [97] 0] : List Entry).length
      = ([⟨0, 8, 0, 2⟩, ⟨0, 1, 0, 0⟩, ⟨0, 13, 0, 0⟩] : List Instruction).length :=
  (C6_disassemble_length [⟨0, 8, 0, 2⟩, ⟨0, 1, 0, 0⟩, ⟨0, 13, 0, 0⟩]
    [Entry.jump 1 8 [97] 2, Entry.plain 2 1, Entry.jumpTarget [97] 0] (by decide)).1

/-! ### Claim C9: jump bounds are necessary and sufficient for safety -/

/-- C9: if every jump-family instruction (comment flag zero, opcode
JUMP/JUMPZ/JUMPN) has its argument below the input length, the
disassembly performs no out-of-bounds write and returns a result;
the precondition is necessary: for the single instruction
`JUMP 5` the write of the jump-target entry is out of bounds and the
run panics (returns no result). -/
theorem C9_jump_bounds_safety :
    (∀ instrs : List Instruction,
      (∀ inst ∈ instrs, inst.Comment = 0 → InstructionsWithLabelOps.contains inst.Op →
        inst.Arg < instrs.length) →
      (Disassemble instrs).isSome) ∧
    Disassemble [⟨0, 8, 0, 5⟩] = none := by
  constructor
  · intro instrs h
    unfold Disassemble
    obtain ⟨st2, ha⟩ := disassembleAux_isSome (MakeLabels instrs) instrs 0
      (List.replicate instrs.length Entry.nil, 1)
      (fun inst hm hc hop => by
        simp only [List.length_replicate]
        exact h inst hm hc hop)
    rw [ha]
    rfl
  · decide

/-- Witness for C9 on a self-jump (in bounds). -/
theorem C9_jump_bounds_safety_witness :
    (Disassemble [⟨0, 8, 0, 0⟩]).isSome :=
  C9_jump_bounds_safety.1 [⟨0, 8, 0, 0⟩] (by decide)

/-! ### Claim C7: comment slots -/

/-- C7: for a slot whose comment flag is non-zero, the emission step
writes a `Comment` entry whose index is the slot's opcode field
(whatever the mode and argument fields hold) and leaves the visible
line counter unchanged. -/
theorem C7_comment_slot :
    ∀ (labels : List (Nat × Label)) (arr : List Entry) (n i : Nat) (inst : Instruction),
      0 < inst.Comment →
      disassembleStep labels (arr, n) i inst = some (arr.set i (Entry.comment inst.Op), n) := by
  intro labels arr n i inst h
  simp [disassembleStep, h]

/-- Witness for C7: a flagged slot with opcode field 9 and argument
field 7 yields a comment entry with index 9, and the line counter
stays 1. -/
theorem C7_comment_slot_witness :
    disassembleStep [] ([Entry.nil], 1) 0 ⟨5, 9, 2, 7⟩ = some ([Entry.comment 9], 1) :=
  C7_comment_slot [] [Entry.nil] 1 0 ⟨5, 9, 2, 7⟩ (by decide)

end HRM
